import Mathlib

/-!
Verification of the text-processing pipeline's validation-and-analysis logic.

The development shallowly embeds the Lambda handler and its `analyzeText`
helper from `lib/text-processing-pipeline-stack.ts`.  JavaScript strings are
modelled as `List Char`; byte buffers as `List Nat` (byte values); the
DynamoDB put, the wall clock and the request context are explicit parameters
of the handler.
-/

namespace TextPipeline

/-- Whitespace as recognised by JavaScript's `\s` regex class and
`String.prototype.trim`: WhiteSpace ∪ LineTerminator of ECMA-262
(tab, LF, vertical tab, form feed, CR, space, NBSP, Ogham space mark,
the Zs range U+2000–U+200A, line/paragraph separator, narrow NBSP,
medium mathematical space, ideographic space, and the BOM). -/
def isJsWhitespace (c : Char) : Bool :=
  decide (c = ' ' ∨ c = '\t' ∨ c = '\n' ∨ c = '\r' ∨ c = '\x0B' ∨ c = '\x0C' ∨
    c = '\u00A0' ∨ c = '\u1680' ∨ (0x2000 ≤ c.toNat ∧ c.toNat ≤ 0x200A) ∨
    c = '\u2028' ∨ c = '\u2029' ∨ c = '\u202F' ∨ c = '\u205F' ∨
    c = '\u3000' ∨ c = '\uFEFF')

/-- JavaScript `s.trim()`: drop leading and trailing whitespace. -/
def trimChars (l : List Char) : List Char :=
  ((l.dropWhile isJsWhitespace).reverse.dropWhile isJsWhitespace).reverse

/-- JavaScript `s.replace(/\r\n/g, '\n')`: every CRLF pair becomes a single
LF, scanning left to right without overlap. -/
def replaceCRLF : List Char → List Char
  | [] => []
  | '\r' :: '\n' :: rest => '\n' :: replaceCRLF rest
  | c :: rest => c :: replaceCRLF rest

/-- JavaScript `s.replace(/\r/g, '\n')`: every remaining CR becomes LF. -/
def replaceCR (l : List Char) : List Char :=
  l.map (fun c => if c = '\r' then '\n' else c)

/-- Splitter for `s.split(/\s+/)`: tokens are the segments between maximal
separator runs; a leading or trailing run contributes an empty token, as the
JavaScript regex split does.  `inSep` records whether the previous character
belonged to a separator run, `acc` is the reversed current token. -/
def splitGo (p : Char → Bool) : List Char → Bool → List Char → List (List Char)
  | [], _, acc => [acc.reverse]
  | c :: cs, inSep, acc =>
    if p c then
      if inSep then splitGo p cs true []
      else acc.reverse :: splitGo p cs true []
    else splitGo p cs false (c :: acc)

/-- JavaScript `s.split(/\s+/)`. -/
def splitWsRuns (l : List Char) : List (List Char) := splitGo isJsWhitespace l false []

/-- JavaScript `s.split('\n')` (single-character separator, empty segments
kept). -/
def splitOnChar (sep : Char) : List Char → List (List Char)
  | [] => [[]]
  | c :: cs =>
    if c = sep then [] :: splitOnChar sep cs
    else
      match splitOnChar sep cs with
      | [] => [[c]]
      | t :: ts => (c :: t) :: ts

/-- The filter `x => x.trim().length > 0` applied to word and line tokens in
`analyzeText`. -/
def hasContent (t : List Char) : Bool := decide (0 < (trimChars t).length)

/-- Result record of `analyzeText`. -/
structure Analysis where
  wordCount : Nat
  lineCount : Nat
  normalizedText : List Char
deriving DecidableEq

/-- The normalization inside `analyzeText`:
`rawText.replace(/\r\n/g, '\n').replace(/\r/g, '\n').trim()`. -/
def normalizeText (rawText : List Char) : List Char :=
  trimChars (replaceCR (replaceCRLF rawText))

/-- `analyzeText` from the Lambda source: normalize the raw text, count
whitespace-delimited tokens with non-blank trim, and count lines (split on
LF) with non-blank trim. -/
def analyzeText (rawText : List Char) : Analysis :=
  let normalizedText := normalizeText rawText
  { wordCount := ((splitWsRuns normalizedText).filter hasContent).length
    lineCount := ((splitOnChar '\n' normalizedText).filter hasContent).length
    normalizedText := normalizedText }

/-- UTF-8 encoding of one character, as `Buffer.from(s, 'utf-8')` produces. -/
def utf8EncodeChar (c : Char) : List Nat :=
  let n := c.toNat
  if n < 0x80 then [n]
  else if n < 0x800 then [0xC0 + n / 64, 0x80 + n % 64]
  else if n < 0x10000 then [0xE0 + n / 4096, 0x80 + n / 64 % 64, 0x80 + n % 64]
  else [0xF0 + n / 262144, 0x80 + n / 4096 % 64, 0x80 + n / 64 % 64, 0x80 + n % 64]

/-- UTF-8 encoding of a string, as `Buffer.from(s, 'utf-8')` produces. -/
def utf8Encode (s : List Char) : List Nat :=
  (s.map utf8EncodeChar).flatten

/-- A UTF-8 continuation byte. -/
def contByte (b : Nat) : Bool := decide (0x80 ≤ b ∧ b < 0xC0)

/-- Worker for `utf8Decode`.  The `fuel` argument only makes the recursion
structural; it is initialised to the buffer length, which bounds the number
of decoding steps because every step consumes at least one byte. -/
def utf8DecodeAux : Nat → List Nat → List Char
  | 0, _ => []
  | _, [] => []
  | fuel + 1, b1 :: rest =>
    if b1 < 0x80 then Char.ofNat b1 :: utf8DecodeAux fuel rest
    else if b1 < 0xC2 then '�' :: utf8DecodeAux fuel rest
    else if b1 < 0xE0 then
      match rest with
      | b2 :: r2 =>
        if contByte b2 then
          Char.ofNat ((b1 - 0xC0) * 64 + (b2 - 0x80)) :: utf8DecodeAux fuel r2
        else '�' :: utf8DecodeAux fuel rest
      | [] => ['�']
    else if b1 < 0xF0 then
      match rest with
      | b2 :: b3 :: r3 =>
        if contByte b2 && contByte b3 &&
            decide (¬(b1 = 0xE0 ∧ b2 < 0xA0)) && decide (¬(b1 = 0xED ∧ 0xA0 ≤ b2)) then
          Char.ofNat ((b1 - 0xE0) * 4096 + (b2 - 0x80) * 64 + (b3 - 0x80)) ::
            utf8DecodeAux fuel r3
        else '�' :: utf8DecodeAux fuel rest
      | _ => '�' :: utf8DecodeAux fuel rest
    else if b1 < 0xF5 then
      match rest with
      | b2 :: b3 :: b4 :: r4 =>
        if contByte b2 && contByte b3 && contByte b4 &&
            decide (¬(b1 = 0xF0 ∧ b2 < 0x90)) && decide (¬(b1 = 0xF4 ∧ 0x90 ≤ b2)) then
          Char.ofNat ((b1 - 0xF0) * 262144 + (b2 - 0x80) * 4096 +
            (b3 - 0x80) * 64 + (b4 - 0x80)) :: utf8DecodeAux fuel r4
        else '�' :: utf8DecodeAux fuel rest
      | _ => '�' :: utf8DecodeAux fuel rest
    else '�' :: utf8DecodeAux fuel rest

/-- Lossy UTF-8 decoding, modelling `buf.toString('utf-8')`: well-formed
sequences decode to their scalar value, malformed bytes decode to U+FFFD.
On the encoding of a valid string it is a left inverse of `utf8Encode`. -/
def utf8Decode (l : List Nat) : List Char := utf8DecodeAux l.length l

/-- Value of one character of the standard base64 alphabet. -/
def base64Val (c : Char) : Option Nat :=
  if 'A' ≤ c ∧ c ≤ 'Z' then some (c.toNat - 65)
  else if 'a' ≤ c ∧ c ≤ 'z' then some (c.toNat - 97 + 26)
  else if '0' ≤ c ∧ c ≤ '9' then some (c.toNat - 48 + 52)
  else if c = '+' then some 62
  else if c = '/' then some 63
  else none

/-- Regroup 6-bit base64 values into bytes; a trailing group of one value
yields no byte, of two or three values one or two bytes. -/
def base64Chunks : List Nat → List Nat
  | a :: b :: c :: d :: rest =>
    (a * 4 + b / 16) :: (b % 16 * 16 + c / 4) :: (c % 4 * 64 + d) :: base64Chunks rest
  | [a, b, c] => [a * 4 + b / 16, b % 16 * 16 + c / 4]
  | [a, b] => [a * 4 + b / 16]
  | [_] => []
  | [] => []

/-- Base64 decoding as `Buffer.from(s, 'base64')` performs it: characters
outside the alphabet (including padding) are ignored, then 6-bit groups are
packed into bytes. -/
def base64Decode (s : List Char) : List Nat :=
  base64Chunks (s.filterMap base64Val)

/-- The API Gateway proxy event fields the handler reads: the body (a
JavaScript string or null), the two content-type header spellings it looks
up, and the base64 flag. -/
structure Event where
  body : Option (List Char)
  contentTypeLower : Option (List Char)
  contentTypeUpper : Option (List Char)
  isBase64Encoded : Bool
deriving DecidableEq

/-- JavaScript `a || b` on possibly-undefined strings: `b` when `a` is
undefined or empty. -/
def jsOr (a b : Option (List Char)) : Option (List Char) :=
  match a with
  | some s => if s.isEmpty then b else some s
  | none => b

/-- JavaScript `hay.startsWith-like` helper for `includes`. -/
def startsWithSeq : List Char → List Char → Bool
  | _, [] => true
  | [], _ :: _ => false
  | c :: cs, d :: ds => c = d && startsWithSeq cs ds

/-- JavaScript `hay.includes(needle)`: some contiguous segment of `hay`
equals `needle`. -/
def includesSeq : List Char → List Char → Bool
  | hay, needle =>
    if startsWithSeq hay needle then true
    else
      match hay with
      | [] => false
      | _ :: t => includesSeq t needle

/-- The check `!event.body` on line 119 of the handler: null or empty
string. -/
def bodyMissing (e : Event) : Bool :=
  match e.body with
  | none => true
  | some s => s.isEmpty

/-- `event.headers['content-type'] || event.headers['Content-Type']`. -/
def eventContentType (e : Event) : Option (List Char) :=
  jsOr e.contentTypeLower e.contentTypeUpper

/-- The check `!contentType || !contentType.toLowerCase().includes('text/plain')`
on line 130 (ASCII lowercasing). -/
def contentTypeInvalid (e : Event) : Bool :=
  match eventContentType e with
  | none => true
  | some ct => ct.isEmpty || !includesSeq (ct.map Char.toLower) ("text/plain".data)

/-- `MAX_FILE_SIZE_BYTES = 1 * 1024 * 1024` from line 111. -/
def MAX_FILE_SIZE_BYTES : Nat := 1 * 1024 * 1024

/-- The decoded payload: `event.isBase64Encoded ? Buffer.from(event.body,
'base64') : Buffer.from(event.body, 'utf-8')`. -/
def fileBuffer (e : Event) : List Nat :=
  if e.isBase64Encoded then base64Decode (e.body.getD [])
  else utf8Encode (e.body.getD [])

/-- `fileBuffer.toString('utf-8')` from line 164. -/
def rawTextOf (e : Event) : List Char :=
  utf8Decode (fileBuffer e)

/-- Response bodies the handler serialises: the error shape `{ message }`,
the success shape `{ message, processingId, wordCount, lineCount }`, and the
catch-all shape `{ message, error, requestId }`. -/
inductive RespBody where
  | err : List Char → RespBody
  | ok : List Char → List Char → Nat → Nat → RespBody
  | fail : List Char → List Char → List Char → RespBody
deriving DecidableEq

/-- An HTTP response: status code and JSON body. -/
structure Response where
  statusCode : Nat
  body : RespBody
deriving DecidableEq

/-- The item written by `dynamoDb.put`. -/
structure StoredItem where
  id : List Char
  textContent : List Char
  wordCount : Nat
  lineCount : Nat
  processedAt : List Char
deriving DecidableEq

/-- A handler run: the response returned and the item written to the store
(none when nothing was persisted). -/
structure HandlerResult where
  response : Response
  stored : Option StoredItem
deriving DecidableEq

def msgNoFile : List Char := "No file uploaded.".data

def msgBadType : List Char :=
  "Invalid file type. Only text/plain (.txt) files are allowed.".data

def msgEmptyFile : List Char := "Uploaded file is empty.".data

/-- `File size exceeds the 1MB limit. Your file size: ${n} bytes.` -/
def msgTooLarge (n : Nat) : List Char :=
  "File size exceeds the 1MB limit. Your file size: ".data ++
    (Nat.repr n).data ++ " bytes.".data

def msgWhitespaceOnly : List Char :=
  "Uploaded file contains no meaningful text (only whitespace).".data

def msgNoTextContent : List Char := "No text content found after processing.".data

def msgSuccess : List Char := "Text processed successfully".data

def msgServerError : List Char := "Error processing text".data

/-- The Lambda handler, lines 113–228 of the source.  Effects are passed in:
`putOk` is whether the DynamoDB put succeeds (a failed put throws, reaching
the catch block before anything is written), `putErr` the thrown error's
message, `now` the value of `Date.now()`, `isoNow` the ISO timestamp, and
`reqId` the request id from the Lambda context. -/
def handler (e : Event) (putOk : Bool) (putErr : List Char) (now : Nat)
    (isoNow reqId : List Char) : HandlerResult :=
  if bodyMissing e then ⟨⟨400, .err msgNoFile⟩, none⟩
  else if contentTypeInvalid e then ⟨⟨400, .err msgBadType⟩, none⟩
  else if (fileBuffer e).length = 0 then ⟨⟨400, .err msgEmptyFile⟩, none⟩
  else if MAX_FILE_SIZE_BYTES < (fileBuffer e).length then
    ⟨⟨400, .err (msgTooLarge (fileBuffer e).length)⟩, none⟩
  else if (trimChars (rawTextOf e)).length = 0 then
    ⟨⟨400, .err msgWhitespaceOnly⟩, none⟩
  else if (analyzeText (rawTextOf e)).wordCount = 0 ∧
      (analyzeText (rawTextOf e)).lineCount = 0 then
    ⟨⟨400, .err msgNoTextContent⟩, none⟩
  else if putOk then
    ⟨⟨200, .ok msgSuccess (Nat.repr now).data (analyzeText (rawTextOf e)).wordCount
        (analyzeText (rawTextOf e)).lineCount⟩,
      some { id := (Nat.repr now).data
             textContent :=
               if 1000 < (analyzeText (rawTextOf e)).normalizedText.length then
                 (analyzeText (rawTextOf e)).normalizedText.take 1000 ++ "...".data
               else (analyzeText (rawTextOf e)).normalizedText
             wordCount := (analyzeText (rawTextOf e)).wordCount
             lineCount := (analyzeText (rawTextOf e)).lineCount
             processedAt := isoNow }⟩
  else ⟨⟨500, .fail msgServerError putErr reqId⟩, none⟩

/-- The validation checks in the fixed order the specification lists in
§4.1 (missing payload, wrong content type, empty decoded payload, size
limit, whitespace-only content, zero counts), each paired with its
user-facing message. -/
def specViolations (e : Event) : List (Bool × List Char) :=
  [(bodyMissing e, msgNoFile),
   (contentTypeInvalid e, msgBadType),
   (decide ((fileBuffer e).length = 0), msgEmptyFile),
   (decide (MAX_FILE_SIZE_BYTES < (fileBuffer e).length),
     msgTooLarge (fileBuffer e).length),
   (decide ((trimChars (rawTextOf e)).length = 0), msgWhitespaceOnly),
   (decide ((analyzeText (rawTextOf e)).wordCount = 0 ∧
     (analyzeText (rawTextOf e)).lineCount = 0), msgNoTextContent)]

/-- The first violated check of `specViolations`, with its message. -/
def specFirstViolation (e : Event) : Option (List Char) :=
  ((specViolations e).find? (fun c => c.1)).map (fun c => c.2)

/-- The six user-facing validation messages in specification order. -/
def specMessages (e : Event) : List (List Char) :=
  (specViolations e).map (fun c => c.2)

/-- Counting automaton equivalent to the word count: number of maximal runs
of non-whitespace characters.  `inRun` records whether the previous
character was part of such a run. -/
def wcGo : List Char → Bool → Nat
  | [], _ => 0
  | c :: cs, inRun =>
    if isJsWhitespace c then wcGo cs false
    else if inRun then wcGo cs true
    else 1 + wcGo cs true

/-- Rewrite a text given in LF convention into another line-break
convention: every LF is replaced by the sequence `nl`. -/
def withLineBreak (nl : List Char) : List Char → List Char
  | [] => []
  | c :: cs =>
    if c = '\n' then nl ++ withLineBreak nl cs
    else c :: withLineBreak nl cs

/-! ### Whitespace, trim and membership lemmas -/

theorem ws_newline : isJsWhitespace '\n' = true := by decide

theorem ws_cr : isJsWhitespace '\r' = true := by decide

theorem mem_dropWhile_of_not {p : Char → Bool} {c : Char} (hc : p c = false) :
    ∀ {l : List Char}, c ∈ l → c ∈ l.dropWhile p := by
  intro l
  induction l with
  | nil => intro h; cases h
  | cons d t ih =>
    intro h
    rw [List.dropWhile_cons]
    split
    · rcases List.mem_cons.mp h with rfl | hm
      · rename_i hd; rw [hc] at hd; cases hd
      · exact ih hm
    · exact h

theorem mem_of_mem_dropWhile {p : Char → Bool} {c : Char} {l : List Char}
    (h : c ∈ l.dropWhile p) : c ∈ l :=
  (List.dropWhile_sublist p).subset h

theorem mem_trimChars_of {c : Char} {l : List Char}
    (hc : isJsWhitespace c = false) (h : c ∈ l) : c ∈ trimChars l := by
  unfold trimChars
  rw [List.mem_reverse]
  exact mem_dropWhile_of_not hc (List.mem_reverse.mpr (mem_dropWhile_of_not hc h))

theorem mem_of_mem_trimChars {c : Char} {l : List Char}
    (h : c ∈ trimChars l) : c ∈ l := by
  unfold trimChars at h
  rw [List.mem_reverse] at h
  have h1 := mem_of_mem_dropWhile h
  rw [List.mem_reverse] at h1
  exact mem_of_mem_dropWhile h1

theorem hasContent_of_mem {c : Char} {t : List Char}
    (hc : isJsWhitespace c = false) (h : c ∈ t) : hasContent t = true := by
  have hm := mem_trimChars_of hc h
  have hne : trimChars t ≠ [] := List.ne_nil_of_mem hm
  simpa [hasContent, List.length_pos] using hne

theorem hasContent_eq_true_iff {t : List Char} :
    hasContent t = true ↔ ∃ c ∈ t, isJsWhitespace c = false := by
  constructor
  · intro h
    by_contra hall
    push_neg at hall
    have hnil : List.dropWhile isJsWhitespace t = [] :=
      List.dropWhile_eq_nil_iff.mpr (fun c hc => by
        have := hall c hc
        simpa using this)
    simp [hasContent, trimChars, hnil] at h
  · rintro ⟨c, hc, hw⟩
    exact hasContent_of_mem hw hc

theorem hasContent_nil : hasContent [] = false := by decide

/-! ### The word-count automaton and the `split(/\s+/)` model -/

theorem splitGo_filter_length (l : List Char) : ∀ (b : Bool) (acc : List Char),
    (∀ c ∈ acc, isJsWhitespace c = false) → (b = true → acc = []) →
    ((splitGo isJsWhitespace l b acc).filter hasContent).length =
      (if acc = [] then wcGo l false else 1 + wcGo l true) := by
  induction l with
  | nil =>
    intro b acc hacc _
    by_cases ha : acc = []
    · subst ha; simp [splitGo, wcGo, hasContent_nil]
    · obtain ⟨c, hc⟩ := List.exists_mem_of_ne_nil acc ha
      have hcont : hasContent acc.reverse = true :=
        hasContent_of_mem (hacc c hc) (List.mem_reverse.mpr hc)
      simp [splitGo, wcGo, List.filter_cons, hcont, ha]
  | cons c cs ih =>
    intro b acc hacc hb
    by_cases hw : isJsWhitespace c = true
    · cases b with
      | true =>
        have ha := hb rfl
        subst ha
        simp only [splitGo, hw, if_true]
        rw [ih true [] (by simp) (fun _ => rfl)]
        simp [wcGo, hw]
      | false =>
        simp only [splitGo, hw, if_true, Bool.false_eq_true, if_false]
        rw [List.filter_cons]
        by_cases ha : acc = []
        · subst ha
          simp only [List.reverse_nil, hasContent_nil, Bool.false_eq_true, if_false]
          rw [ih true [] (by simp) (fun _ => rfl)]
          simp [wcGo, hw]
        · obtain ⟨d, hd⟩ := List.exists_mem_of_ne_nil acc ha
          have hcont : hasContent acc.reverse = true :=
            hasContent_of_mem (hacc d hd) (List.mem_reverse.mpr hd)
          rw [hcont]
          simp only [if_true, List.length_cons]
          rw [ih true [] (by simp) (fun _ => rfl)]
          simp [wcGo, hw, ha, Nat.add_comm]
    · have hw' : isJsWhitespace c = false := by
        cases hcc : isJsWhitespace c
        · rfl
        · exact absurd hcc hw
      simp only [splitGo, hw', Bool.false_eq_true, if_false]
      rw [ih false (c :: acc)
        (fun d hd => by
          rcases List.mem_cons.mp hd with rfl | hm
          · exact hw'
          · exact hacc d hm)
        (fun h => by cases h)]
      simp only [List.cons_ne_nil, if_false]
      by_cases ha : acc = []
      · subst ha; simp [wcGo, hw']
      · simp [wcGo, hw', ha]

theorem wordCount_eq_wcGo (l : List Char) :
    ((splitWsRuns l).filter hasContent).length = wcGo l false := by
  have h := splitGo_filter_length l false [] (by simp) (by simp)
  simpa [splitWsRuns] using h

theorem wcGo_append_ws {c : Char} (hc : isJsWhitespace c = true) (ys : List Char) :
    ∀ (xs : List Char) (b : Bool),
      wcGo (xs ++ c :: ys) b = wcGo xs b + wcGo ys false := by
  intro xs
  induction xs with
  | nil => intro b; simp [wcGo, hc]
  | cons x t ih =>
    intro b
    by_cases hx : isJsWhitespace x = true
    · simp [wcGo, hx, ih]
    · have hx' : isJsWhitespace x = false := by
        cases hxx : isJsWhitespace x
        · rfl
        · exact absurd hxx hx
      cases b
      · simp [wcGo, hx', ih]
        try omega
      · simp [wcGo, hx', ih]
        try omega

theorem wcGo_pos {l : List Char} (h : ∃ c ∈ l, isJsWhitespace c = false) :
    1 ≤ wcGo l false := by
  induction l with
  | nil => simp at h
  | cons c cs ih =>
    obtain ⟨d, hd, hw⟩ := h
    by_cases hc : isJsWhitespace c = true
    · simp only [wcGo, hc, if_true]
      apply ih
      rcases List.mem_cons.mp hd with rfl | hm
      · rw [hc] at hw; cases hw
      · exact ⟨d, hm, hw⟩
    · have hc' : isJsWhitespace c = false := by
        cases hcc : isJsWhitespace c
        · rfl
        · exact absurd hcc hc
      simp [wcGo, hc']

/-! ### The `split('\n')` model -/

theorem splitOnChar_ne_nil (sep : Char) (l : List Char) : splitOnChar sep l ≠ [] := by
  induction l with
  | nil => simp [splitOnChar]
  | cons c cs ih =>
    simp only [splitOnChar]
    split
    · simp
    · split
      · simp
      · simp

theorem splitOnChar_of_not_mem {sep : Char} : ∀ {l : List Char},
    sep ∉ l → splitOnChar sep l = [l] := by
  intro l
  induction l with
  | nil => intro _; rfl
  | cons c cs ih =>
    intro h
    have hc : ¬c = sep := fun hc => h (hc ▸ List.mem_cons_self c cs)
    have hcs : sep ∉ cs := fun hm => h (List.mem_cons_of_mem c hm)
    simp [splitOnChar, hc, ih hcs]

theorem splitOnChar_append {sep : Char} (r : List Char) : ∀ {t : List Char},
    sep ∉ t → splitOnChar sep (t ++ sep :: r) = t :: splitOnChar sep r := by
  intro t
  induction t with
  | nil => intro _; simp [splitOnChar]
  | cons c t ih =>
    intro h
    have hc : ¬c = sep := fun hc => h (hc ▸ List.mem_cons_self c t)
    have ht : sep ∉ t := fun hm => h (List.mem_cons_of_mem c hm)
    simp [splitOnChar, hc, ih ht]

theorem exists_first_sep (sep : Char) (l : List Char) :
    sep ∉ l ∨ ∃ t r, l = t ++ sep :: r ∧ sep ∉ t := by
  induction l with
  | nil => left; simp
  | cons c cs ih =>
    by_cases hc : c = sep
    · subst hc; right; exact ⟨[], cs, rfl, by simp⟩
    · rcases ih with h | ⟨t, r, rfl, ht⟩
      · left
        intro hm
        rcases List.mem_cons.mp hm with h1 | h2
        · exact hc h1.symm
        · exact h h2
      · right
        refine ⟨c :: t, r, rfl, ?_⟩
        intro hm
        rcases List.mem_cons.mp hm with h1 | h2
        · exact hc h1.symm
        · exact ht h2

theorem mem_splitOnChar {sep c : Char} (hc : c ≠ sep) : ∀ {l : List Char},
    c ∈ l → ∃ t ∈ splitOnChar sep l, c ∈ t := by
  intro l
  induction l with
  | nil => intro h; cases h
  | cons d cs ih =>
    intro h
    by_cases hd : d = sep
    · subst hd
      have hm : c ∈ cs := by
        rcases List.mem_cons.mp h with rfl | hm
        · exact absurd rfl hc
        · exact hm
      obtain ⟨t, ht, hct⟩ := ih hm
      exact ⟨t, by simp [splitOnChar, ht], hct⟩
    · cases hsp : splitOnChar sep cs with
      | nil => exact absurd hsp (splitOnChar_ne_nil sep cs)
      | cons t0 ts =>
        rcases List.mem_cons.mp h with rfl | hm
        · exact ⟨c :: t0, by simp [splitOnChar, hd, hsp], List.mem_cons_self c t0⟩
        · obtain ⟨t, ht, hct⟩ := ih hm
          rw [hsp] at ht
          rcases List.mem_cons.mp ht with rfl | htt
          · exact ⟨d :: t, by simp [splitOnChar, hd, hsp], List.mem_cons_of_mem d hct⟩
          · exact ⟨t, by simp [splitOnChar, hd, hsp, htt], hct⟩

theorem lineCount_pos {l : List Char} (h : ∃ c ∈ l, isJsWhitespace c = false) :
    1 ≤ ((splitOnChar '\n' l).filter hasContent).length := by
  obtain ⟨c, hc, hw⟩ := h
  have hcn : c ≠ '\n' := fun hcn => by rw [hcn, ws_newline] at hw; cases hw
  obtain ⟨t, ht, hct⟩ := mem_splitOnChar hcn hc
  have hmem : t ∈ (splitOnChar '\n' l).filter hasContent :=
    List.mem_filter.mpr ⟨ht, hasContent_of_mem hw hct⟩
  have := List.ne_nil_of_mem hmem
  rw [← List.length_pos] at this
  omega

theorem lineCount_le_wordCount (l : List Char) :
    ((splitOnChar '\n' l).filter hasContent).length ≤
      ((splitWsRuns l).filter hasContent).length := by
  rcases exists_first_sep '\n' l with h | ⟨t, r, heq, ht⟩
  · rw [splitOnChar_of_not_mem h, wordCount_eq_wcGo]
    rw [List.filter_cons]
    by_cases hc : hasContent l = true
    · have := wcGo_pos (hasContent_eq_true_iff.mp hc)
      simp [hc]
      omega
    · have hc' : hasContent l = false := by
        cases hcc : hasContent l
        · rfl
        · exact absurd hcc hc
      simp [hc']
  · subst heq
    have h1 : splitOnChar '\n' (t ++ '\n' :: r) = t :: splitOnChar '\n' r :=
      splitOnChar_append r ht
    have h2 : ((splitWsRuns (t ++ '\n' :: r)).filter hasContent).length
        = wcGo t false + wcGo r false := by
      rw [wordCount_eq_wcGo, wcGo_append_ws ws_newline]
    have ihr := lineCount_le_wordCount r
    rw [wordCount_eq_wcGo] at ihr
    rw [h1, h2, List.filter_cons]
    have hwt : (if hasContent t = true then 1 else 0) ≤ wcGo t false := by
      split
      · exact wcGo_pos (hasContent_eq_true_iff.mp (by assumption))
      · omega
    split
    · rename_i hct
      simp only [List.length_cons]
      rw [if_pos hct] at hwt
      omega
    · rename_i hct
      omega
termination_by l.length
decreasing_by simp [heq, List.length_append]; omega

/-! ### Normalization lemmas -/

theorem dropWhile_head_not {p : Char → Bool} : ∀ {l : List Char} {c : Char} {t : List Char},
    List.dropWhile p l = c :: t → p c = false := by
  intro l
  induction l with
  | nil => intro c t h; cases h
  | cons d s ih =>
    intro c t h
    rw [List.dropWhile_cons] at h
    split at h
    · exact ih h
    · rename_i hd
      rw [List.cons.injEq] at h
      rcases h with ⟨rfl, -⟩
      simpa [Bool.not_eq_true] using hd

theorem trimChars_eq_self {l : List Char}
    (h1 : ∀ c t, l = c :: t → isJsWhitespace c = false)
    (h2 : ∀ c t, l.reverse = c :: t → isJsWhitespace c = false) :
    trimChars l = l := by
  cases hl : l with
  | nil => rfl
  | cons c t =>
    have hc := h1 c t hl
    unfold trimChars
    rw [List.dropWhile_cons, if_neg (by simp [hc])]
    cases hr : (c :: t).reverse with
    | nil => simp at hr
    | cons d s =>
      have hd := h2 d s (by rw [hl]; exact hr)
      rw [List.dropWhile_cons, if_neg (by simp [hd]), ← hr, List.reverse_reverse]

theorem trimChars_idem (l : List Char) : trimChars (trimChars l) = trimChars l := by
  apply trimChars_eq_self
  · intro c t h
    have hm : List.dropWhile isJsWhitespace l
        = c :: (t ++ (List.takeWhile isJsWhitespace
            (List.dropWhile isJsWhitespace l).reverse).reverse) := by
      have hd := List.takeWhile_append_dropWhile isJsWhitespace
        (List.dropWhile isJsWhitespace l).reverse
      have hrev := congrArg List.reverse hd
      rw [List.reverse_append, List.reverse_reverse] at hrev
      unfold trimChars at h
      rw [h] at hrev
      simpa using hrev.symm
    exact dropWhile_head_not hm
  · intro c t h
    unfold trimChars at h
    rw [List.reverse_reverse] at h
    exact dropWhile_head_not h

theorem replaceCRLF_cons (c : Char) (rest : List Char)
    (hg : ∀ r, c = '\r' → rest = '\n' :: r → False) :
    replaceCRLF (c :: rest) = c :: replaceCRLF rest :=
  replaceCRLF.eq_3 c rest hg

theorem replaceCRLF_of_no_cr : ∀ {l : List Char}, '\r' ∉ l → replaceCRLF l = l := by
  intro l
  induction l using replaceCRLF.induct with
  | case1 => intro _; rfl
  | case2 rest ih => intro h; simp at h
  | case3 c rest hg ih =>
    intro h
    have hc : c ≠ '\r' := fun hc => h (hc ▸ List.mem_cons_self c rest)
    have ht : '\r' ∉ rest := fun hm => h (List.mem_cons_of_mem c hm)
    rw [replaceCRLF_cons c rest (fun r h1 _ => hc h1), ih ht]

theorem replaceCRLF_of_no_lf : ∀ {l : List Char}, '\n' ∉ l → replaceCRLF l = l := by
  intro l
  induction l using replaceCRLF.induct with
  | case1 => intro _; rfl
  | case2 rest ih => intro h; simp at h
  | case3 c rest hg ih =>
    intro h
    have hn : ∀ r, rest = '\n' :: r → False := fun r hr => by
      apply h
      rw [hr]
      exact List.mem_cons_of_mem c (List.mem_cons_self '\n' r)
    have ht : '\n' ∉ rest := fun hm => h (List.mem_cons_of_mem c hm)
    rw [replaceCRLF_cons c rest (fun r _ h2 => hn r h2), ih ht]

theorem mem_replaceCRLF {c : Char} (hc : c ≠ '\r') : ∀ {l : List Char},
    c ∈ l → c ∈ replaceCRLF l := by
  intro l
  induction l using replaceCRLF.induct with
  | case1 => intro h; cases h
  | case2 rest ih =>
    intro h
    rw [replaceCRLF.eq_2]
    rcases List.mem_cons.mp h with rfl | h2
    · exact absurd rfl hc
    · rcases List.mem_cons.mp h2 with rfl | h3
      · exact List.mem_cons_self _ _
      · exact List.mem_cons_of_mem _ (ih h3)
  | case3 d rest hg ih =>
    intro h
    rw [replaceCRLF_cons d rest hg]
    rcases List.mem_cons.mp h with rfl | h2
    · exact List.mem_cons_self _ _
    · exact List.mem_cons_of_mem _ (ih h2)

theorem replaceCR_of_no_cr : ∀ {l : List Char}, '\r' ∉ l → replaceCR l = l := by
  intro l
  induction l with
  | nil => intro _; rfl
  | cons c t ih =>
    intro h
    have hc : ¬c = '\r' := fun hc => h (hc ▸ List.mem_cons_self c t)
    have ht : '\r' ∉ t := fun hm => h (List.mem_cons_of_mem c hm)
    simp only [replaceCR, List.map_cons, if_neg hc]
    have := ih ht
    simp only [replaceCR] at this
    rw [this]

theorem replaceCR_no_cr {l : List Char} {c : Char} (h : c ∈ replaceCR l) : c ≠ '\r' := by
  rcases List.mem_map.mp h with ⟨a, _, rfl⟩
  by_cases ha : a = '\r' <;> simp [ha]

theorem mem_replaceCR {c : Char} {l : List Char} (hc : c ≠ '\r') (h : c ∈ l) :
    c ∈ replaceCR l :=
  List.mem_map.mpr ⟨c, h, by simp [hc]⟩

theorem normalizeText_no_cr {raw : List Char} {c : Char}
    (h : c ∈ normalizeText raw) : c ≠ '\r' := by
  unfold normalizeText at h
  exact replaceCR_no_cr (mem_of_mem_trimChars h)

theorem mem_normalizeText {c : Char} {raw : List Char}
    (hw : isJsWhitespace c = false) (h : c ∈ raw) : c ∈ normalizeText raw := by
  have hcr : c ≠ '\r' := fun hc => by rw [hc, ws_cr] at hw; cases hw
  exact mem_trimChars_of hw (mem_replaceCR hcr (mem_replaceCRLF hcr h))

/-! ### Line-break conventions -/

theorem replaceCRLF_withLineBreak_crlf : ∀ {s : List Char}, '\r' ∉ s →
    replaceCRLF (withLineBreak ['\r', '\n'] s) = s := by
  intro s
  induction s with
  | nil => intro _; rfl
  | cons c cs ih =>
    intro h
    have hc : c ≠ '\r' := fun hc => h (hc ▸ List.mem_cons_self c cs)
    have ht : '\r' ∉ cs := fun hm => h (List.mem_cons_of_mem c hm)
    by_cases hn : c = '\n'
    · subst hn
      simp only [withLineBreak, if_pos rfl, if_true, List.cons_append, List.nil_append]
      rw [replaceCRLF.eq_2, ih ht]
    · simp only [withLineBreak, if_neg hn]
      rw [replaceCRLF_cons c _ (fun r hr _ => hc hr), ih ht]

theorem no_lf_withLineBreak_cr : ∀ {s : List Char}, '\n' ∉ withLineBreak ['\r'] s := by
  intro s
  induction s with
  | nil => simp [withLineBreak]
  | cons c cs ih =>
    by_cases hn : c = '\n'
    · subst hn
      simp only [withLineBreak, if_pos rfl, if_true, List.cons_append, List.nil_append]
      intro hm
      rcases List.mem_cons.mp hm with h1 | h2
      · cases h1
      · exact ih h2
    · simp only [withLineBreak, if_neg hn]
      intro hm
      rcases List.mem_cons.mp hm with h1 | h2
      · exact hn h1.symm
      · exact ih h2

theorem replaceCR_withLineBreak_cr : ∀ {s : List Char}, '\r' ∉ s →
    replaceCR (withLineBreak ['\r'] s) = s := by
  intro s
  induction s with
  | nil => intro _; rfl
  | cons c cs ih =>
    intro h
    have hc : ¬c = '\r' := fun hc => h (hc ▸ List.mem_cons_self c cs)
    have ht : '\r' ∉ cs := fun hm => h (List.mem_cons_of_mem c hm)
    by_cases hn : c = '\n'
    · subst hn
      simp only [withLineBreak, if_pos rfl, if_true, List.cons_append, List.nil_append,
        replaceCR, List.map_cons]
      have := ih ht
      simp only [replaceCR] at this
      rw [this]
    · simp only [withLineBreak, if_neg hn, replaceCR, List.map_cons, if_neg hc]
      have := ih ht
      simp only [replaceCR] at this
      rw [this]

theorem normalizeText_withLineBreak_crlf {s : List Char} (h : '\r' ∉ s) :
    normalizeText (withLineBreak ['\r', '\n'] s) = normalizeText s := by
  unfold normalizeText
  rw [replaceCRLF_withLineBreak_crlf h, replaceCRLF_of_no_cr h]

theorem normalizeText_withLineBreak_cr {s : List Char} (h : '\r' ∉ s) :
    normalizeText (withLineBreak ['\r'] s) = normalizeText s := by
  unfold normalizeText
  rw [replaceCRLF_of_no_lf no_lf_withLineBreak_cr, replaceCR_withLineBreak_cr h,
    replaceCRLF_of_no_cr h, replaceCR_of_no_cr h]

theorem analyzeText_congr {x y : List Char} (h : normalizeText x = normalizeText y) :
    analyzeText x = analyzeText y := by
  simp only [analyzeText, h]

/-! ### Claims about the analysis function -/

/-- C1: for every input whose decoded size is at most 1 MiB and which
contains at least one non-whitespace character, `analyzeText` returns
`wordCount ≥ 1` and `lineCount ≥ 1`. -/
theorem wordCount_lineCount_pos_of_nonwhitespace (s : List Char)
    (_hsize : (utf8Encode s).length ≤ 1048576)
    (hchar : ∃ c ∈ s, isJsWhitespace c = false) :
    1 ≤ (analyzeText s).wordCount ∧ 1 ≤ (analyzeText s).lineCount := by
  obtain ⟨c, hc, hw⟩ := hchar
  have hmem : c ∈ normalizeText s := mem_normalizeText hw hc
  constructor
  · show 1 ≤ ((splitWsRuns (normalizeText s)).filter hasContent).length
    rw [wordCount_eq_wcGo]
    exact wcGo_pos ⟨c, hmem, hw⟩
  · show 1 ≤ ((splitOnChar '\n' (normalizeText s)).filter hasContent).length
    exact lineCount_pos ⟨c, hmem, hw⟩

/-- Witness for C1 at the concrete input `"hi"`. -/
theorem wordCount_lineCount_pos_of_nonwhitespace_witness :
    (utf8Encode ("hi".data)).length ≤ 1048576 ∧
      (∃ c ∈ "hi".data, isJsWhitespace c = false) ∧
      1 ≤ (analyzeText ("hi".data)).wordCount ∧
      1 ≤ (analyzeText ("hi".data)).lineCount :=
  ⟨by decide, by decide,
    wordCount_lineCount_pos_of_nonwhitespace ("hi".data) (by decide) (by decide)⟩

/-- C4: the normalization (CRLF to LF, lone CR to LF, trim outer
whitespace) is idempotent. -/
theorem normalizeText_idempotent (s : List Char) :
    normalizeText (normalizeText s) = normalizeText s := by
  have hnc : '\r' ∉ normalizeText s := fun h => normalizeText_no_cr h rfl
  show trimChars (replaceCR (replaceCRLF (normalizeText s))) = normalizeText s
  rw [replaceCRLF_of_no_cr hnc, replaceCR_of_no_cr hnc]
  show trimChars (trimChars (replaceCR (replaceCRLF s))) = normalizeText s
  rw [trimChars_idem]
  rfl

/-- C5: replacing the line breaks of a text uniformly by CRLF or by lone CR
(the LF form being the text itself) leaves both counts of `analyzeText`
unchanged. -/
theorem analyzeText_line_ending_invariant (s : List Char) (h : '\r' ∉ s) :
    (analyzeText (withLineBreak ['\r', '\n'] s)).lineCount = (analyzeText s).lineCount ∧
      (analyzeText (withLineBreak ['\r', '\n'] s)).wordCount = (analyzeText s).wordCount ∧
      (analyzeText (withLineBreak ['\r'] s)).lineCount = (analyzeText s).lineCount ∧
      (analyzeText (withLineBreak ['\r'] s)).wordCount = (analyzeText s).wordCount := by
  have h1 := analyzeText_congr (normalizeText_withLineBreak_crlf h)
  have h2 := analyzeText_congr (normalizeText_withLineBreak_cr h)
  rw [h1, h2]
  exact ⟨rfl, rfl, rfl, rfl⟩

/-- Witness for C5 at the concrete two-line text `"ab\ncd"`. -/
theorem analyzeText_line_ending_invariant_witness :
    '\r' ∉ "ab\ncd".data ∧
      (analyzeText (withLineBreak ['\r', '\n'] ("ab\ncd".data))).lineCount
        = (analyzeText ("ab\ncd".data)).lineCount :=
  ⟨by decide, (analyzeText_line_ending_invariant ("ab\ncd".data) (by decide)).1⟩

/-- C8: `analyzeText "hello world\n\nfoo"` returns wordCount 3 and
lineCount 2. -/
theorem analyzeText_hello_world_example :
    (analyzeText ("hello world\n\nfoo".data)).wordCount = 3 ∧
      (analyzeText ("hello world\n\nfoo".data)).lineCount = 2 := by
  decide

/-- C10: on every input the word count is at least the line count, because
every non-blank line contains at least one whitespace-delimited token. -/
theorem analyzeText_lineCount_le_wordCount (rawText : List Char) :
    (analyzeText rawText).lineCount ≤ (analyzeText rawText).wordCount := by
  show ((splitOnChar '\n' (normalizeText rawText)).filter hasContent).length ≤
    ((splitWsRuns (normalizeText rawText)).filter hasContent).length
  exact lineCount_le_wordCount (normalizeText rawText)

/-! ### Handler lemmas -/

theorem msgTooLarge_head (n : Nat) : (msgTooLarge n).head? = some 'F' := rfl

theorem ne_msgTooLarge_of_head {m : List Char} {c : Char} (h1 : m.head? = some c)
    (hc : c ≠ 'F') (n : Nat) : m ≠ msgTooLarge n := by
  intro h
  rw [h, msgTooLarge_head] at h1
  exact hc (Option.some.inj h1).symm

/-- C3: the handler returns HTTP 200 exactly when a record was written to
the store; every non-200 outcome stores nothing. -/
theorem handler_ok_iff_stored (e : Event) (putOk : Bool) (putErr : List Char)
    (now : Nat) (isoNow reqId : List Char) :
    (handler e putOk putErr now isoNow reqId).response.statusCode = 200 ↔
      ∃ item, (handler e putOk putErr now isoNow reqId).stored = some item := by
  unfold handler
  split_ifs <;> simp

/-- C9: a request whose body is the empty string is treated as a missing
payload: HTTP 400 with the message of the missing-payload check, which is
distinct from the empty-decoded-payload message, and nothing is stored. -/
theorem empty_body_no_file_response (ct1 ct2 : Option (List Char)) (b64 putOk : Bool)
    (putErr : List Char) (now : Nat) (isoNow reqId : List Char) :
    handler ⟨some [], ct1, ct2, b64⟩ putOk putErr now isoNow reqId
        = ⟨⟨400, .err msgNoFile⟩, none⟩ ∧ msgNoFile ≠ msgEmptyFile := by
  constructor
  · have hb : bodyMissing ⟨some [], ct1, ct2, b64⟩ = true := rfl
    unfold handler
    rw [if_pos hb]
  · decide

/-- C7: a decoded payload larger than 1,048,576 bytes is rejected with a
message reporting its actual byte size, while a payload within the limit is
never answered with the size-limit message. -/
theorem size_limit_rejection (e : Event) (putOk : Bool) (putErr : List Char)
    (now : Nat) (isoNow reqId : List Char) :
    (bodyMissing e = false → contentTypeInvalid e = false →
      MAX_FILE_SIZE_BYTES < (fileBuffer e).length →
      handler e putOk putErr now isoNow reqId
        = ⟨⟨400, .err (msgTooLarge (fileBuffer e).length)⟩, none⟩) ∧
    ((fileBuffer e).length ≤ MAX_FILE_SIZE_BYTES → ∀ n,
      (handler e putOk putErr now isoNow reqId).response.body
        ≠ RespBody.err (msgTooLarge n)) := by
  constructor
  · intro h1 h2 h3
    unfold handler
    rw [if_neg (by simp [h1]), if_neg (by simp [h2]), if_neg (by omega), if_pos h3]
  · intro hle n
    unfold handler
    split_ifs with hb hct hz hsz hws hzero hput
    · exact fun hcontra =>
        @ne_msgTooLarge_of_head msgNoFile 'N' rfl (by decide) n (RespBody.err.inj hcontra)
    · exact fun hcontra =>
        @ne_msgTooLarge_of_head msgBadType 'I' rfl (by decide) n (RespBody.err.inj hcontra)
    · exact fun hcontra =>
        @ne_msgTooLarge_of_head msgEmptyFile 'U' rfl (by decide) n (RespBody.err.inj hcontra)
    · omega
    · exact fun hcontra =>
        @ne_msgTooLarge_of_head msgWhitespaceOnly 'U' rfl (by decide) n
          (RespBody.err.inj hcontra)
    · exact fun hcontra =>
        @ne_msgTooLarge_of_head msgNoTextContent 'N' rfl (by decide) n
          (RespBody.err.inj hcontra)
    all_goals exact fun h => RespBody.noConfusion h

theorem utf8Encode_replicate_length {c : Char} (h : c.toNat < 128) :
    ∀ n, (utf8Encode (List.replicate n c)).length = n := by
  intro n
  induction n with
  | zero => rfl
  | succ k ih =>
    rw [List.replicate_succ]
    simp only [utf8Encode, List.map_cons, List.flatten_cons, List.length_append]
    have h1 : (utf8EncodeChar c).length = 1 := by simp [utf8EncodeChar, h]
    simp only [utf8Encode] at ih
    omega

/-- A 1,048,577-character ASCII body, one byte over the limit. -/
def evOversize : Event :=
  ⟨some (List.replicate 1048577 'a'), some ("text/plain".data), none, false⟩

/-- A 1,048,576-character ASCII body, exactly at the limit. -/
def evMaxSize : Event :=
  ⟨some (List.replicate 1048576 'a'), some ("text/plain".data), none, false⟩

theorem evOversize_len : (fileBuffer evOversize).length = 1048577 := by
  have h : fileBuffer evOversize = utf8Encode (List.replicate 1048577 'a') := rfl
  rw [h, utf8Encode_replicate_length (by decide)]

theorem evMaxSize_len : (fileBuffer evMaxSize).length = 1048576 := by
  have h : fileBuffer evMaxSize = utf8Encode (List.replicate 1048576 'a') := rfl
  rw [h, utf8Encode_replicate_length (by decide)]

/-- Witness for C7: the 1,048,577-byte payload is rejected reporting size
1048577, and the 1,048,576-byte payload never receives the size message. -/
theorem size_limit_rejection_witness :
    bodyMissing evOversize = false ∧ contentTypeInvalid evOversize = false ∧
      MAX_FILE_SIZE_BYTES < (fileBuffer evOversize).length ∧
      handler evOversize true [] 0 [] []
        = ⟨⟨400, .err (msgTooLarge (fileBuffer evOversize).length)⟩, none⟩ ∧
      (fileBuffer evMaxSize).length ≤ MAX_FILE_SIZE_BYTES ∧
      ∀ n, (handler evMaxSize true [] 0 [] []).response.body
        ≠ RespBody.err (msgTooLarge n) := by
  have h1 : bodyMissing evOversize = false := rfl
  have h2 : contentTypeInvalid evOversize = false := rfl
  have h3 : MAX_FILE_SIZE_BYTES < (fileBuffer evOversize).length := by
    rw [evOversize_len]; decide
  have h4 : (fileBuffer evMaxSize).length ≤ MAX_FILE_SIZE_BYTES := by
    rw [evMaxSize_len]; decide
  exact ⟨h1, h2, h3, (size_limit_rejection evOversize true [] 0 [] []).1 h1 h2 h3,
    h4, (size_limit_rejection evMaxSize true [] 0 [] []).2 h4⟩

theorem spec_violation_handler_eq (e : Event) (putOk : Bool) (putErr : List Char)
    (now : Nat) (isoNow reqId : List Char) :
    ∀ m, specFirstViolation e = some m →
      handler e putOk putErr now isoNow reqId = ⟨⟨400, .err m⟩, none⟩ := by
  intro m hm
  by_cases h1 : bodyMissing e = true
  · have hv : specFirstViolation e = some msgNoFile := by
      simp [specFirstViolation, specViolations, h1]
    rw [hv] at hm
    injection hm with hm'
    subst hm'
    unfold handler
    rw [if_pos h1]
  · by_cases h2 : contentTypeInvalid e = true
    · have hv : specFirstViolation e = some msgBadType := by
        simp [specFirstViolation, specViolations, h1, h2]
      rw [hv] at hm
      injection hm with hm'
      subst hm'
      unfold handler
      rw [if_neg h1, if_pos h2]
    · by_cases h3 : (fileBuffer e).length = 0
      · have hv : specFirstViolation e = some msgEmptyFile := by
          simp [specFirstViolation, specViolations, h1, h2, h3]
        rw [hv] at hm
        injection hm with hm'
        subst hm'
        unfold handler
        rw [if_neg h1, if_neg h2, if_pos h3]
      · by_cases h4 : MAX_FILE_SIZE_BYTES < (fileBuffer e).length
        · have hv : specFirstViolation e = some (msgTooLarge (fileBuffer e).length) := by
            simp [specFirstViolation, specViolations, h1, h2, h3, h4]
          rw [hv] at hm
          injection hm with hm'
          subst hm'
          unfold handler
          rw [if_neg h1, if_neg h2, if_neg h3, if_pos h4]
        · by_cases h5 : (trimChars (rawTextOf e)).length = 0
          · have hv : specFirstViolation e = some msgWhitespaceOnly := by
              simp [specFirstViolation, specViolations, h1, h2, h3, h4, h5]
            rw [hv] at hm
            injection hm with hm'
            subst hm'
            unfold handler
            rw [if_neg h1, if_neg h2, if_neg h3, if_neg h4, if_pos h5]
          · by_cases h6 : (analyzeText (rawTextOf e)).wordCount = 0 ∧
                (analyzeText (rawTextOf e)).lineCount = 0
            · have hv : specFirstViolation e = some msgNoTextContent := by
                simp [specFirstViolation, specViolations, h1, h2, h3, h4, h5, h6]
              rw [hv] at hm
              injection hm with hm'
              subst hm'
              unfold handler
              rw [if_neg h1, if_neg h2, if_neg h3, if_neg h4, if_neg h5, if_pos h6]
            · have hv : specFirstViolation e = none := by
                simp [specFirstViolation, specViolations, h1, h2, h3, h4, h5, h6]
              rw [hv] at hm
              cases hm

theorem spec_no_violation_not_400 (e : Event) (putOk : Bool) (putErr : List Char)
    (now : Nat) (isoNow reqId : List Char) :
    specFirstViolation e = none →
      (handler e putOk putErr now isoNow reqId).response.statusCode ≠ 400 := by
  intro hnone
  by_cases h1 : bodyMissing e = true
  · have hv : specFirstViolation e = some msgNoFile := by
      simp [specFirstViolation, specViolations, h1]
    rw [hv] at hnone
    cases hnone
  · by_cases h2 : contentTypeInvalid e = true
    · have hv : specFirstViolation e = some msgBadType := by
        simp [specFirstViolation, specViolations, h1, h2]
      rw [hv] at hnone
      cases hnone
    · by_cases h3 : (fileBuffer e).length = 0
      · have hv : specFirstViolation e = some msgEmptyFile := by
          simp [specFirstViolation, specViolations, h1, h2, h3]
        rw [hv] at hnone
        cases hnone
      · by_cases h4 : MAX_FILE_SIZE_BYTES < (fileBuffer e).length
        · have hv : specFirstViolation e = some (msgTooLarge (fileBuffer e).length) := by
            simp [specFirstViolation, specViolations, h1, h2, h3, h4]
          rw [hv] at hnone
          cases hnone
        · by_cases h5 : (trimChars (rawTextOf e)).length = 0
          · have hv : specFirstViolation e = some msgWhitespaceOnly := by
              simp [specFirstViolation, specViolations, h1, h2, h3, h4, h5]
            rw [hv] at hnone
            cases hnone
          · by_cases h6 : (analyzeText (rawTextOf e)).wordCount = 0 ∧
                (analyzeText (rawTextOf e)).lineCount = 0
            · have hv : specFirstViolation e = some msgNoTextContent := by
                simp [specFirstViolation, specViolations, h1, h2, h3, h4, h5, h6]
              rw [hv] at hnone
              cases hnone
            · unfold handler
              rw [if_neg h1, if_neg h2, if_neg h3, if_neg h4, if_neg h5, if_neg h6]
              by_cases hp : putOk = true
              · rw [if_pos hp]
                simp
              · rw [if_neg hp]
                simp

theorem specMessages_pairwise_ne (e : Event) :
    (specMessages e).Pairwise (fun a b => a ≠ b) := by
  have t1 : msgNoFile ≠ msgTooLarge (fileBuffer e).length :=
    @ne_msgTooLarge_of_head msgNoFile 'N' rfl (by decide) _
  have t2 : msgBadType ≠ msgTooLarge (fileBuffer e).length :=
    @ne_msgTooLarge_of_head msgBadType 'I' rfl (by decide) _
  have t3 : msgEmptyFile ≠ msgTooLarge (fileBuffer e).length :=
    @ne_msgTooLarge_of_head msgEmptyFile 'U' rfl (by decide) _
  have t4 : msgTooLarge (fileBuffer e).length ≠ msgWhitespaceOnly :=
    Ne.symm (@ne_msgTooLarge_of_head msgWhitespaceOnly 'U' rfl (by decide) _)
  have t5 : msgTooLarge (fileBuffer e).length ≠ msgNoTextContent :=
    Ne.symm (@ne_msgTooLarge_of_head msgNoTextContent 'N' rfl (by decide) _)
  simp only [specMessages, specViolations, List.map_cons, List.map_nil]
  refine List.Pairwise.cons ?_ (List.Pairwise.cons ?_ (List.Pairwise.cons ?_
    (List.Pairwise.cons ?_ (List.Pairwise.cons ?_ (List.pairwise_singleton _ _)))))
  · intro a ha
    simp only [List.mem_cons, List.not_mem_nil, or_false] at ha
    rcases ha with rfl | rfl | rfl | rfl | rfl
    · decide
    · decide
    · exact t1
    · decide
    · decide
  · intro a ha
    simp only [List.mem_cons, List.not_mem_nil, or_false] at ha
    rcases ha with rfl | rfl | rfl | rfl
    · decide
    · exact t2
    · decide
    · decide
  · intro a ha
    simp only [List.mem_cons, List.not_mem_nil, or_false] at ha
    rcases ha with rfl | rfl | rfl
    · exact t3
    · decide
    · decide
  · intro a ha
    simp only [List.mem_cons, List.not_mem_nil, or_false] at ha
    rcases ha with rfl | rfl
    · exact t4
    · exact t5
  · intro a ha
    simp only [List.mem_cons, List.not_mem_nil, or_false] at ha
    subst ha
    decide

/-- C2: the handler evaluates the six validation checks in the fixed
specification order, halts at the first violated check with HTTP 400 and
that check's message while storing nothing, never returns 400 when no check
is violated, and the six user-facing messages are pairwise distinct. -/
theorem handler_first_violation (e : Event) (putOk : Bool) (putErr : List Char)
    (now : Nat) (isoNow reqId : List Char) :
    (∀ m, specFirstViolation e = some m →
      handler e putOk putErr now isoNow reqId = ⟨⟨400, .err m⟩, none⟩) ∧
    (specFirstViolation e = none →
      (handler e putOk putErr now isoNow reqId).response.statusCode ≠ 400) ∧
    (specMessages e).Pairwise (fun a b => a ≠ b) :=
  ⟨spec_violation_handler_eq e putOk putErr now isoNow reqId,
    spec_no_violation_not_400 e putOk putErr now isoNow reqId,
    specMessages_pairwise_ne e⟩

/-- Witness for C2: a whitespace-only request is answered with exactly the
whitespace-only message and nothing stored, and a valid request is not
answered with 400. -/
theorem handler_first_violation_witness :
    specFirstViolation ⟨some ("   ".data), some ("text/plain".data), none, false⟩
        = some msgWhitespaceOnly ∧
      handler ⟨some ("   ".data), some ("text/plain".data), none, false⟩ true [] 0 [] []
        = ⟨⟨400, .err msgWhitespaceOnly⟩, none⟩ ∧
      specFirstViolation ⟨some ("hi".data), some ("text/plain".data), none, false⟩ = none ∧
      (handler ⟨some ("hi".data), some ("text/plain".data), none, false⟩ true [] 0 [] []
        ).response.statusCode ≠ 400 :=
  ⟨by decide,
    (handler_first_violation ⟨some ("   ".data), some ("text/plain".data), none, false⟩
      true [] 0 [] []).1 msgWhitespaceOnly (by decide),
    by decide,
    (handler_first_violation ⟨some ("hi".data), some ("text/plain".data), none, false⟩
      true [] 0 [] []).2.1 (by decide)⟩

/-- A 1200-character payload: one letter followed by 1199 spaces. -/
def evTrunc : Event :=
  ⟨some ('a' :: List.replicate 1199 ' '), some ("text/plain".data), none, false⟩

set_option maxRecDepth 8000 in
/-- Counterexample to C6 as stated: this 1200-character text payload is
accepted and stored with a `textContent` of length 1, not 1003, because
normalization shrinks the text below the 1000-character threshold before
truncation is considered. -/
theorem truncation_1200_counterexample :
    (rawTextOf evTrunc).length = 1200 ∧
      ((handler evTrunc true [] 0 [] []).stored.map (fun it => it.textContent.length))
        = some 1 ∧ (1 : Nat) ≠ 1003 := by
  refine ⟨by decide, by decide, by decide⟩

/-- C6 (amended): when the handler stores an item for a payload whose
decoded text has 1200 characters and whose normalized text is still longer
than 1000 characters, the request succeeds with HTTP 200 (truncation is
applied after validation, never causing rejection) and the stored
`textContent` has length exactly 1003: the first 1000 characters of the
normalized text plus the 3-character marker. -/
theorem stored_truncation_length (e : Event) (putOk : Bool) (putErr : List Char)
    (now : Nat) (isoNow reqId : List Char) (item : StoredItem)
    (hst : (handler e putOk putErr now isoNow reqId).stored = some item)
    (_hlen : (rawTextOf e).length = 1200)
    (hnorm : 1000 < (analyzeText (rawTextOf e)).normalizedText.length) :
    item.textContent.length = 1003 ∧
      (handler e putOk putErr now isoNow reqId).response.statusCode = 200 := by
  unfold handler at hst ⊢
  split_ifs at hst ⊢
  all_goals try cases hst
  constructor
  · show (((analyzeText (rawTextOf e)).normalizedText.take 1000) ++ "...".data).length
      = 1003
    have h9 : ("...".data).length = 3 := rfl
    simp only [List.length_append, List.length_take, h9]
    omega
  · rfl

/-- A 1200-character payload that stays 1200 characters after
normalization. -/
def evFull1200 : Event :=
  ⟨some (List.replicate 1200 'x'), some ("text/plain".data), none, false⟩

/-- The item the handler stores for `evFull1200`. -/
def itemFull1200 : StoredItem :=
  ⟨(Nat.repr 0).data,
    (analyzeText (rawTextOf evFull1200)).normalizedText.take 1000 ++ "...".data,
    (analyzeText (rawTextOf evFull1200)).wordCount,
    (analyzeText (rawTextOf evFull1200)).lineCount, []⟩

set_option maxRecDepth 8000 in
/-- Witness for the amended C6 at a concrete 1200-character payload. -/
theorem stored_truncation_length_witness :
    (handler evFull1200 true [] 0 [] []).stored = some itemFull1200 ∧
      (rawTextOf evFull1200).length = 1200 ∧
      1000 < (analyzeText (rawTextOf evFull1200)).normalizedText.length ∧
      itemFull1200.textContent.length = 1003 ∧
      (handler evFull1200 true [] 0 [] []).response.statusCode = 200 := by
  have hnorm : 1000 < (analyzeText (rawTextOf evFull1200)).normalizedText.length := by
    decide
  have h1 : (handler evFull1200 true [] 0 [] []).stored = some itemFull1200 := by
    unfold handler itemFull1200
    rw [if_neg (by decide), if_neg (by decide), if_neg (by decide), if_neg (by decide),
      if_neg (by decide), if_neg (by decide), if_pos rfl, if_pos hnorm]
  have h2 : (rawTextOf evFull1200).length = 1200 := by decide
  obtain ⟨ha, hb⟩ :=
    stored_truncation_length evFull1200 true [] 0 [] [] itemFull1200 h1 h2 hnorm
  exact ⟨h1, h2, hnorm, ha, hb⟩

end TextPipeline
